import Mathlib

/-!
Verification of the token-description scraping and enrichment pipeline.

The development shallowly embeds the pipeline's pure core:

* `PumpFunScraper.extractDescription`, `PumpFunScraper.isValidDescription`,
  `PumpFunScraper.isValidTextBlock`, `PumpFunScraper.findTextBlocks`
  (src/lib/transactions.ts, second compilation unit, the `PumpFunScraper`
  class), including hand-rolled matchers for the JavaScript regular
  expressions the code uses;
* `PumpFunScraper.scrapeTokenDescription`, `processBatch`,
  `scrapeMultipleTokens` and the cache, with network I/O abstracted as an
  environment `FetchEnv` assigning each address a fetch outcome, and the
  cooperative event-loop schedule modelled as sequential threading of the
  cache (results are schedule-independent, which is proved where needed);
* `getPumpList` / `enhanceTokensWithDescriptions` (src/unnamed/part_005),
  with the upstream list fetch and the 15000 ms enrichment race abstracted
  as explicit outcome parameters.

Text is modelled as `List Char`.  JavaScript string length counts UTF-16
code units while `List.length` counts code points; these agree on the
ASCII inputs relevant here.  The regex classes `\s`, `\d`, `\w` are
modelled by `isJsSpace`, `isJsDigit`, `isWordChar` (ASCII fragment), and
case-insensitive matching is modelled by first lowercasing ASCII letters,
which coincides with JavaScript `i`-flag semantics on the ASCII patterns
involved.
-/

namespace Pump

/-- JavaScript regex class `\s` and the whitespace removed by `trim`
(ASCII fragment). -/
def isJsSpace (c : Char) : Bool :=
  c = ' ' || c = '\t' || c = '\n' || c = '\r' || c = '\x0b' || c = '\x0c'

/-- JavaScript regex class `\d`. -/
def isJsDigit (c : Char) : Bool :=
  '0' ≤ c && c ≤ '9'

/-- JavaScript regex class `\w` (also the class deciding `\b` word
boundaries). -/
def isWordChar (c : Char) : Bool :=
  ('a' ≤ c && c ≤ 'z') || ('A' ≤ c && c ≤ 'Z') || isJsDigit c || c = '_'

/-- ASCII lowercasing, modelling `String.prototype.toLowerCase` and
`i`-flag canonicalisation on the ASCII texts at issue. -/
def toLowerAscii (c : Char) : Char :=
  if 'A' ≤ c && c ≤ 'Z' then Char.ofNat (c.toNat + 32) else c

/-- Lowercase a whole text (`text.toLowerCase()`). -/
def lowerStr (t : List Char) : List Char :=
  t.map toLowerAscii

/-- Consume a literal character sequence; `none` on mismatch. -/
def eatLit : List Char → List Char → Option (List Char)
  | [], cs => some cs
  | _ :: _, [] => none
  | l :: ls, c :: cs => if c = l then eatLit ls cs else none

/-- Consume the maximal run of characters satisfying `p` (regex `X*`,
exact here because every adjacent token class in the embedded patterns is
disjoint from `p`). -/
def eatStar (p : Char → Bool) : List Char → List Char
  | [] => []
  | c :: cs => if p c then eatStar p cs else c :: cs

/-- Consume a non-empty run of characters satisfying `p` (regex `X+`). -/
def eatPlus (p : Char → Bool) : List Char → Option (List Char)
  | [] => none
  | c :: cs => if p c then some (eatStar p cs) else none

/-- Consume one optional occurrence of `c` (regex `c?`; exact because the
token following `s?` in the embedded patterns never matches `s`). -/
def eatOptChar (c : Char) : List Char → List Char
  | [] => []
  | d :: ds => if d = c then ds else d :: ds

/-- First alternative of a literal alternation that matches (regex
`(w1|w2|...)`; the alternatives are mutually non-prefix words). -/
def eatAnyLit : List (List Char) → List Char → Option (List Char)
  | [], _ => none
  | w :: ws, cs =>
    match eatLit w cs with
    | some r => some r
    | none => eatAnyLit ws cs

/-- Boolean prefix test for character lists. -/
def listIsPrefixOf : List Char → List Char → Bool
  | [], _ => true
  | _ :: _, [] => false
  | a :: as, b :: bs => a = b && listIsPrefixOf as bs

/-- `hay.includes(needle)` on character lists. -/
def containsSub (needle : List Char) : List Char → Bool
  | [] => needle.isEmpty
  | c :: cs => listIsPrefixOf needle (c :: cs) || containsSub needle cs

/-- The time-unit alternation `(second|minute|hour|day|week|month|year)`. -/
def timeUnits : List (List Char) :=
  ["second".data, "minute".data, "hour".data, "day".data, "week".data,
   "month".data, "year".data]

def agoChars : List Char := "ago".data

def aboutChars : List Char := "about".data

/-- Consume `\s+(second|minute|hour|day|week|month|year)s?\s+ago`. -/
def eatUnitAgo (cs : List Char) : Option (List Char) :=
  (eatPlus isJsSpace cs).bind fun c1 =>
    (eatAnyLit timeUnits c1).bind fun c2 =>
      (eatPlus isJsSpace (eatOptChar 's' c2)).bind fun c3 =>
        eatLit agoChars c3

/-- Matcher body of `/\b\d+\s+(second|...|year)s?\s+ago\b/i` at one
position. -/
def relTimeAt (cs : List Char) : Option (List Char) :=
  (eatPlus isJsDigit cs).bind eatUnitAgo

/-- Matcher body of `/\babout\s+\d+\s+(second|...|year)s?\s+ago\b/i` at
one position. -/
def aboutTimeAt (cs : List Char) : Option (List Char) :=
  (eatLit aboutChars cs).bind fun c1 =>
    (eatPlus isJsSpace c1).bind fun c2 =>
      (eatPlus isJsDigit c2).bind eatUnitAgo

/-- Matcher body of `/\b\d+[mhd]\s+ago\b/i` at one position. -/
def shortTimeAt (cs : List Char) : Option (List Char) :=
  match eatPlus isJsDigit cs with
  | some (c :: rest) =>
    if c = 'm' || c = 'h' || c = 'd' then
      (eatPlus isJsSpace rest).bind fun r => eatLit agoChars r
    else none
  | _ => none

/-- Trailing `\b` after a word character: the remainder must start with a
non-word character or be empty. -/
def boundaryOk : Option (List Char) → Bool
  | some [] => true
  | some (c :: _) => !isWordChar c
  | none => false

/-- `RegExp.prototype.test` for an unanchored pattern whose first and last
matched characters are word characters: try the matcher at every position
whose preceding character satisfies the leading `\b`, requiring the
trailing `\b`. -/
def scanTest (m : List Char → Option (List Char)) : Bool → List Char → Bool
  | prevW, [] => !prevW && boundaryOk (m [])
  | prevW, c :: cs =>
    (!prevW && boundaryOk (m (c :: cs))) || scanTest m (isWordChar c) cs

/-- `pattern.test(text)` starting at the beginning of the text. -/
def testPattern (m : List Char → Option (List Char)) (cs : List Char) : Bool :=
  scanTest m false cs

/-- Anchored `/^\s*\d+\s+(second|...|year)s?\s+ago\s*$/i`. -/
def fullTimeMatch (cs : List Char) : Bool :=
  match eatPlus isJsDigit (eatStar isJsSpace cs) with
  | some r =>
    match eatUnitAgo r with
    | some rest => (eatStar isJsSpace rest).isEmpty
    | none => false
  | none => false

/-- Alternatives of `/^(just now|moments? ago|recently created?)$/i`. -/
def justNowWords : List (List Char) :=
  ["just now".data, "moment ago".data, "moments ago".data,
   "recently create".data, "recently created".data]

/-- Alternatives of `/^(yesterday|today|tomorrow)$/i`. -/
def dayWords : List (List Char) :=
  ["yesterday".data, "today".data, "tomorrow".data]

/-- `timePatterns.some(pattern => pattern.test(text))` from
`isValidDescription`: the six relative-time regexes, case-insensitive. -/
def hasTimePattern (t : List Char) : Bool :=
  let low := lowerStr t
  testPattern relTimeAt low || testPattern aboutTimeAt low ||
  testPattern shortTimeAt low || fullTimeMatch low ||
  justNowWords.contains low || dayWords.contains low

/-- The `commonExclusions` list (exact, case-insensitive matches). -/
def commonExclusions : List (List Char) :=
  ["default description".data, "time since creation".data,
   "creation time".data]

/-- The `uiExclusions` list (substring matches, skipped for meta tags). -/
def uiExclusions : List (List Char) :=
  ["connect wallet".data, "copy address".data, "click here".data,
   "sign in".data, "log in".data, "loading".data, "view more".data,
   "show more".data, "read more".data, "taking too long to load".data,
   "try refresh".data, "refresh the page".data, "page not found".data,
   "error loading".data, "failed to load".data, "try again".data]

/-- `ScraperConfig` (src/lib/transactions.ts). -/
structure ScraperConfig where
  rateLimitDelay : Nat
  batchSize : Nat
  batchDelay : Nat
  maxDescriptionLength : Nat
  minDescriptionLength : Nat
  requestTimeout : Nat

/-- The production configuration object of `PumpFunScraper`. -/
def config : ScraperConfig :=
  { rateLimitDelay := 75
    batchSize := 50
    batchDelay := 0
    maxDescriptionLength := 2500
    minDescriptionLength := 0
    requestTimeout := 4000 }

/-- `PumpFunScraper.isValidDescription(text, isMetaTag)`.  `!text` is
JavaScript falsiness of a string, i.e. emptiness. -/
def isValidDescription (text : List Char) (isMetaTag : Bool) : Bool :=
  if text.isEmpty || text.length < config.minDescriptionLength ||
      config.maxDescriptionLength < text.length then
    false
  else if hasTimePattern text then false
  else if commonExclusions.contains (lowerStr text) then false
  else if !isMetaTag && uiExclusions.any (fun e => containsSub e (lowerStr text)) then
    false
  else true

/-- `text.split(sep)` for a single-character separator: empty segments
between consecutive separators are kept, exactly as in JavaScript. -/
def splitOnChar (sep : Char) : List Char → List (List Char)
  | [] => [[]]
  | c :: cs =>
    let r := splitOnChar sep cs
    if c = sep then [] :: r
    else
      match r with
      | h :: t => (c :: h) :: t
      | [] => [[c]]

/-- `text.match(/^\d+[.,]\d+/)` truthiness. -/
def matchesLeadingDecimal (cs : List Char) : Bool :=
  match eatPlus isJsDigit cs with
  | some (c :: rest) => (c = '.' || c = ',') && (eatPlus isJsDigit rest).isSome
  | _ => false

/-- `text.match(/^\w+\s*$/)` truthiness. -/
def matchesSingleWord (cs : List Char) : Bool :=
  match eatPlus isWordChar cs with
  | some rest => (eatStar isJsSpace rest).isEmpty
  | none => false

/-- `PumpFunScraper.isValidTextBlock(text)`. -/
def isValidTextBlock (text : List Char) : Bool :=
  if !isValidDescription text false then false
  else
    let low := lowerStr text
    !matchesLeadingDecimal text &&
    !matchesSingleWord text &&
    2 < (splitOnChar ' ' text).length &&
    !containsSub ("market cap".data) low &&
    !containsSub ("loading".data) low &&
    !containsSub ("refresh".data) low &&
    !containsSub ("try again".data) low

/-- Replace every `\s` character by a plain space (first half of
`text.replace(/\s+/g, ' ')`). -/
def wsToSpace (cs : List Char) : List Char :=
  cs.map fun c => if isJsSpace c then ' ' else c

/-- Collapse runs of spaces to a single space (second half of
`text.replace(/\s+/g, ' ')`, after `wsToSpace`). -/
def squeeze : List Char → List Char
  | [] => []
  | [c] => [c]
  | a :: b :: cs =>
    if a = ' ' && b = ' ' then squeeze (b :: cs) else a :: squeeze (b :: cs)

/-- Remove trailing `\s` characters. -/
def dropTrailWs : List Char → List Char
  | [] => []
  | c :: cs =>
    match dropTrailWs cs with
    | [] => if isJsSpace c then [] else [c]
    | r => c :: r

/-- `text.trim()`. -/
def trimWs (cs : List Char) : List Char :=
  dropTrailWs (cs.dropWhile isJsSpace)

/-- `text.replace(/\s+/g, ' ').trim()`, the normalisation applied to every
value `extractDescription` returns. -/
def normalizeWs (cs : List Char) : List Char :=
  trimWs (squeeze (wsToSpace cs))

/-- Abstraction of the cheerio query results `extractDescription` performs
on the raw HTML.  Each meta field is the `content` attribute of the first
element matched by the corresponding selector (`none` when the attribute
is absent); each structural field lists the text of every element matched
by the corresponding selector, in document order; `textElements` lists
every `p`, `div`, `span` element in document order, paired with its
`children().length === 0` flag. -/
structure HtmlDoc where
  metaDescription : Option (List Char)
  ogDescription : Option (List Char)
  twitterDescription : Option (List Char)
  classDescriptionTexts : List (List Char)
  dataTestidTexts : List (List Char)
  mainPTexts : List (List Char)
  classAboutTexts : List (List Char)
  textElements : List (Bool × List Char)

/-- The `metaSelectors` loop data: content attributes in the fixed order
`meta[name=description]`, `meta[property=og:description]`,
`meta[name=twitter:description]`. -/
def metaContents (d : HtmlDoc) : List (Option (List Char)) :=
  [d.metaDescription, d.ogDescription, d.twitterDescription]

/-- The `structuralSelectors` loop data: element texts per selector in the
fixed order `[class*=description]`, `[data-testid*=description]`,
`main p`, `[class*=about]`. -/
def structuralTexts (d : HtmlDoc) : List (List (List Char)) :=
  [d.classDescriptionTexts, d.dataTestidTexts, d.mainPTexts,
   d.classAboutTexts]

/-- The meta-tag pass of `extractDescription`: accept the first content
attribute that is truthy and valid with meta-tag leniency; note the raw
attribute is validated, normalisation happens only on return. -/
def firstMetaValid : List (Option (List Char)) → Option (List Char)
  | [] => none
  | oc :: rest =>
    match oc with
    | some content =>
      if !content.isEmpty && isValidDescription content true then
        some (normalizeWs content)
      else firstMetaValid rest
    | none => firstMetaValid rest

/-- Inner loop of the structural pass: first element text whose trimmed
form is valid without leniency. -/
def firstStructValidIn : List (List Char) → Option (List Char)
  | [] => none
  | raw :: rest =>
    if isValidDescription (trimWs raw) false then
      some (normalizeWs (trimWs raw))
    else firstStructValidIn rest

/-- Outer loop of the structural pass over the four selectors. -/
def firstStructValid : List (List (List Char)) → Option (List Char)
  | [] => none
  | elems :: rest =>
    match firstStructValidIn elems with
    | some r => some r
    | none => firstStructValid rest

/-- `PumpFunScraper.findTextBlocks`: first leaf (`children().length === 0`)
`p`/`div`/`span` whose trimmed text is a valid text block. -/
def findTextBlocks : List (Bool × List Char) → Option (List Char)
  | [] => none
  | (leaf, raw) :: rest =>
    if leaf && isValidTextBlock (trimWs raw) then
      some (normalizeWs (trimWs raw))
    else findTextBlocks rest

/-- `PumpFunScraper.extractDescription(html)`: meta tags, then structural
selectors, then the leaf text-block scan, stopping at the first
acceptable candidate (`null` when none). -/
def extractDescription (d : HtmlDoc) : Option (List Char) :=
  match firstMetaValid (metaContents d) with
  | some r => some r
  | none =>
    match firstStructValid (structuralTexts d) with
    | some r => some r
    | none => findTextBlocks d.textElements

/-- The `'No description available'` placeholder. -/
def placeholder : List Char := "No description available".data

/-- Cached `ScrapedTokenData` (`{ description?, error? }`). -/
structure ScrapedTokenData where
  description : Option (List Char)
  error : Option (List Char)

/-- The scraper's in-memory cache, modelled extensionally as the lookup
function of the `Map` (`undefined` = `none`). -/
def Cache : Type := List Char → Option ScrapedTokenData

/-- A fresh scraper's empty cache. -/
def emptyCache : Cache := fun _ => none

/-- `cache.set(addr, v)`. -/
def cacheSet (c : Cache) (a : List Char) (v : ScrapedTokenData) : Cache :=
  fun b => if b = a then some v else c b

/-- `clearTokenFromCache(addr)` — `cache.delete(addr)`. -/
def clearTokenFromCache (c : Cache) (a : List Char) : Cache :=
  fun b => if b = a then none else c b

/-- `clearCache()` — `cache.clear()`. -/
def clearCache (_ : Cache) : Cache := emptyCache

/-- Outcome of `fetchTokenPage` for one address: either the raw page
(already abstracted to its query results) or a thrown `FetchError`
(network failure, non-2xx status, or the 4000 ms abort) with its
message. -/
inductive FetchResult where
  | success (html : HtmlDoc)
  | failure (msg : List Char)

/-- The network environment: what fetching each address's page yields.
Deterministic per address within the execution being modelled. -/
def FetchEnv : Type := List Char → FetchResult

/-- JavaScript `description || undefined` for the cache write. -/
def jsOrUndefined (d : Option (List Char)) : Option (List Char) :=
  match d with
  | some s => if s.isEmpty then none else some s
  | none => none

/-- JavaScript `description || 'No description available'` for the return
value. -/
def jsOrPlaceholder (d : Option (List Char)) : List Char :=
  match d with
  | some s => if s.isEmpty then placeholder else s
  | none => none.getD placeholder

/-- `PumpFunScraper.scrapeTokenDescription(addr)`: returns the description
string, the cache afterwards, and the number of network fetches issued
(`0` on a cache hit, `1` otherwise).  The rate-limit delay has no
observable effect in this model and is omitted. -/
def scrapeTokenDescription (env : FetchEnv) (c : Cache) (a : List Char) :
    List Char × Cache × Nat :=
  match c a with
  | some cached => (cached.description.getD placeholder, c, 0)
  | none =>
    match env a with
    | FetchResult.success html =>
      let description := extractDescription html
      (jsOrPlaceholder description,
       cacheSet c a { description := jsOrUndefined description, error := none },
       1)
    | FetchResult.failure msg =>
      (placeholder,
       cacheSet c a { description := none, error := some msg },
       1)

/-- The `Record<string, string>` of results, modelled extensionally. -/
def ResMap : Type := List Char → Option (List Char)

/-- The empty results record. -/
def emptyRes : ResMap := fun _ => none

/-- `results[addr] = desc`. -/
def resSet (res : ResMap) (a v : List Char) : ResMap :=
  fun b => if b = a then some v else res b

/-- `Object.assign(results, batchResults)`: entries of `batch` overwrite
entries of `res`. -/
def resMerge (res batch : ResMap) : ResMap :=
  fun b =>
    match batch b with
    | some v => some v
    | none => res b

/-- `PumpFunScraper.processBatch`: every scrape is wrapped so it settles
(it never rejects, since `scrapeTokenDescription` catches all errors), and
each fulfilled value is recorded under its address.  The concurrent
operations are threaded sequentially through the shared cache; this is
one admissible event-loop schedule, and the recorded values are
schedule-independent (see `settledResult_stable`). -/
def processBatchGo (env : FetchEnv) (c : Cache) (res : ResMap) :
    List (List Char) → ResMap × Cache
  | [] => (res, c)
  | a :: rest =>
    let r := scrapeTokenDescription env c a
    processBatchGo env r.2.1 (resSet res a r.1) rest

/-- `processBatch(addresses)` starting from an empty results record. -/
def processBatch (env : FetchEnv) (c : Cache) (addrs : List (List Char)) :
    ResMap × Cache :=
  processBatchGo env c emptyRes addrs

/-- Batch loop of `scrapeMultipleTokens`: slices of `config.batchSize`
addresses, each processed by `processBatch` and merged into the running
record.  The loop is indexed by a fuel argument to keep the recursion
structural (kernel-reducible); each iteration consumes at least one
address since `config.batchSize ≥ 1`, so fuel `addrs.length` is never
exhausted before the address list is and the fuel-zero branch is
unreachable from `scrapeMultipleTokens`.  The inter-batch delay
(`batchDelay`, currently 0) has no observable effect in this model. -/
def scrapeMultiGo (env : FetchEnv) : Nat → Cache → ResMap →
    List (List Char) → ResMap × Cache
  | _, c, res, [] => (res, c)
  | 0, c, res, _ => (res, c)
  | n + 1, c, res, a :: rest =>
    let r := processBatch env c ((a :: rest).take config.batchSize)
    scrapeMultiGo env n r.2 (resMerge res r.1)
      ((a :: rest).drop config.batchSize)

/-- `PumpFunScraper.scrapeMultipleTokens(addresses)`. -/
def scrapeMultipleTokens (env : FetchEnv) (c : Cache)
    (addrs : List (List Char)) : ResMap × Cache :=
  scrapeMultiGo env addrs.length c emptyRes addrs

/-- A `RankedToken` from the upstream list API, restricted to the two
fields the enrichment pipeline reads or writes; all other upstream fields
are carried through untouched by the code and are omitted.
`description = none` models a missing/undefined field. -/
structure RankedToken where
  address : List Char
  description : Option (List Char)
deriving DecidableEq

/-- `!token.description || token.description.trim() === ''` — the filter
selecting tokens that need scraping. -/
def needsDescription (t : RankedToken) : Bool :=
  match t.description with
  | none => true
  | some s => s.isEmpty || (trimWs s).isEmpty

/-- Body of the merge loop of `enhanceTokensWithDescriptions`: overwrite
the token's description when the scraped record holds a truthy,
non-placeholder value for its address.  Note the loop runs over every
token, keyed only by address. -/
def applyScrape (m : ResMap) (t : RankedToken) : RankedToken :=
  match m t.address with
  | some d =>
    if !d.isEmpty && !(d = placeholder : Bool) then
      RankedToken.mk t.address (some d)
    else t
  | none => t

/-- The overall enrichment timeout (ms) raced against the orchestrator in
`enhanceTokensWithDescriptions`. -/
def enrichmentTimeoutMs : Nat := 15000

/-- `enhanceTokensWithDescriptions(tokens)` (src/unnamed/part_005).
`raceLost = true` models `Promise.race` settling with the 15000 ms
timeout rejection, which the surrounding `try/catch` swallows, leaving
the tokens untouched. -/
def enhanceTokensWithDescriptions (raceLost : Bool) (env : FetchEnv)
    (c : Cache) (tokens : List RankedToken) : List RankedToken :=
  let needing := tokens.filter needsDescription
  if needing.isEmpty then tokens
  else if raceLost then tokens
  else
    let m := (scrapeMultipleTokens env c (needing.map RankedToken.address)).1
    tokens.map (applyScrape m)

/-- Result of `JSON.parse` on the upstream body: a parse failure throws,
otherwise `data.rank || []` reads an optional `rank` array (`none` models
a missing or falsy `rank`). -/
inductive UpstreamBody where
  | unparseable
  | parsed (rank : Option (List RankedToken))

/-- Outcome of the upstream list fetch in `getPumpList`: a rejected
`fetch` (network error), or a response with its `ok` flag and body. -/
inductive UpstreamResult where
  | netError
  | response (ok : Bool) (body : UpstreamBody)

/-- `getPumpList()` (src/unnamed/part_005): fetch the ranked list, enrich
in place, return the list; every failure path is caught and yields
`[]`. -/
def getPumpList (upstream : UpstreamResult) (raceLost : Bool)
    (env : FetchEnv) (c : Cache) : List RankedToken :=
  match upstream with
  | UpstreamResult.netError => []
  | UpstreamResult.response ok body =>
    if !ok then []
    else
      match body with
      | UpstreamBody.unparseable => []
      | UpstreamBody.parsed rank =>
        let tokens := rank.getD []
        let enhanced := enhanceTokensWithDescriptions raceLost env c tokens
        if 0 < enhanced.length then enhanced else []

/-- The failure modes of the upstream list fetch named by the spec:
network error, non-2xx status, or a body not parseable as the expected
shape (unparseable JSON or no `rank` array). -/
def upstreamFailed : UpstreamResult → Bool
  | UpstreamResult.netError => true
  | UpstreamResult.response ok body =>
    !ok ||
    (match body with
     | UpstreamBody.unparseable => true
     | UpstreamBody.parsed rank => rank.isNone)

/-- The description value a fresh (uncached) scrape of `a` settles with
under environment `env`. -/
def freshValue (env : FetchEnv) (a : List Char) : List Char :=
  match env a with
  | FetchResult.success html => jsOrPlaceholder (extractDescription html)
  | FetchResult.failure _ => placeholder

/-- The description value a scrape of `a` settles with given cache `c`:
the cached value if present (placeholder for a cached error), otherwise
the fresh value. -/
def settledResult (env : FetchEnv) (c : Cache) (a : List Char) : List Char :=
  match c a with
  | some entry => entry.description.getD placeholder
  | none => freshValue env a

/-- The text does not start with a whitespace character. -/
def noLeadingWs : List Char → Bool
  | [] => true
  | c :: _ => !isJsSpace c

/-- The text does not end with a whitespace character. -/
def noTrailingWs : List Char → Bool
  | [] => true
  | [c] => !isJsSpace c
  | _ :: c :: cs => noTrailingWs (c :: cs)

/-- The text contains no two consecutive plain spaces. -/
def noDoubleSpace : List Char → Bool
  | a :: b :: cs => !(a = ' ' && b = ' ') && noDoubleSpace (b :: cs)
  | _ => true

/-- Every whitespace character of the text is a plain space. -/
def onlyPlainSpace (l : List Char) : Bool :=
  l.all fun c => !isJsSpace c || c = ' '

/-- The text is in the whitespace-normal form produced by
`replace(/\s+/g, ' ').trim()`: only plain spaces, no runs of spaces, and
no leading or trailing whitespace. -/
def isNormalizedText (l : List Char) : Bool :=
  onlyPlainSpace l && noDoubleSpace l && noLeadingWs l && noTrailingWs l

/-- Number of words of a text in the ordinary sense: maximal runs of
non-whitespace characters.  Used to state claims that speak of "words"
of a text, as opposed to the `split(' ')` segments the code counts. -/
def wordCountGo : Bool → List Char → Nat
  | _, [] => 0
  | inWord, c :: cs =>
    if isJsSpace c then wordCountGo false cs
    else (if inWord then 0 else 1) + wordCountGo true cs

/-- Number of whitespace-delimited words of a text. -/
def wordCount (l : List Char) : Nat :=
  wordCountGo false l

/-- The cache entry `scrapeTokenDescription` writes for address `a` on a
cache miss. -/
def storedEntry (env : FetchEnv) (a : List Char) : ScrapedTokenData :=
  match env a with
  | FetchResult.success html =>
    { description := jsOrUndefined (extractDescription html), error := none }
  | FetchResult.failure msg => { description := none, error := some msg }

/-- Concrete page fixture used by a witness: a valid meta description. -/
def sampleHtml : HtmlDoc :=
  HtmlDoc.mk (some ("Nice token indeed".data)) none none [] [] [] [] []

/-- Concrete environment fixture used by a witness: fetching address "A"
throws, fetching any other address succeeds with `sampleHtml`. -/
def envAB : FetchEnv := fun a =>
  if a = ("A".data) then FetchResult.failure ("boom".data)
  else FetchResult.success sampleHtml

end Pump

namespace Pump

/-! ## Theorems about the validity filters -/

/-- C7: for all text matching one of the relative-time patterns (e.g.
"5 minutes ago", "2 hours ago", "just now", "yesterday"),
`isValidDescription` returns false under both leniency settings. -/
theorem relative_time_rejected (t : List Char) (b : Bool)
    (h : hasTimePattern t = true) : isValidDescription t b = false := by
  unfold isValidDescription
  split
  · rfl
  · simp [h]

/-- Witness for C7 on the four example texts of the claim. -/
theorem relative_time_rejected_witness :
    hasTimePattern ("5 minutes ago".data) = true ∧
    isValidDescription ("5 minutes ago".data) true = false ∧
    isValidDescription ("2 hours ago".data) false = false ∧
    isValidDescription ("just now".data) true = false ∧
    isValidDescription ("yesterday".data) false = false :=
  ⟨by decide,
   relative_time_rejected ("5 minutes ago".data) true (by decide),
   relative_time_rejected ("2 hours ago".data) false (by decide),
   relative_time_rejected ("just now".data) true (by decide),
   relative_time_rejected ("yesterday".data) false (by decide)⟩

/-- C8 counterexample: "hello  world" (two spaces) has two words, and
`isValidDescription` accepts it, yet `isValidTextBlock` returns true: the
code counts `split(' ')` segments, and consecutive spaces create an empty
third segment. -/
theorem two_word_text_block_cex :
    wordCount ("hello  world".data) = 2 ∧
    isValidDescription ("hello  world".data) false = true ∧
    isValidTextBlock ("hello  world".data) = true := by
  refine ⟨by decide, by decide, by decide⟩

/-- C8 amended: for all text splitting into fewer than three segments on
single spaces (the code's notion of word count, where consecutive spaces
contribute empty segments), `isValidTextBlock` returns false, even for
inputs `isValidDescription` accepts. -/
theorem split_segments_lt_three_rejected (t : List Char)
    (h : (splitOnChar ' ' t).length < 3) : isValidTextBlock t = false := by
  unfold isValidTextBlock
  split
  · rfl
  · have h2 : ¬(2 < (splitOnChar ' ' t).length) := by omega
    simp only [h2, decide_False, Bool.false_and, Bool.and_false]

/-- Witness for the amended C8: "hi world" splits into two segments and is
accepted by `isValidDescription` but rejected by `isValidTextBlock`. -/
theorem split_segments_lt_three_rejected_witness :
    (splitOnChar ' ' ("hi world".data)).length < 3 ∧
    isValidDescription ("hi world".data) false = true ∧
    isValidTextBlock ("hi world".data) = false :=
  ⟨by decide, by decide,
   split_segments_lt_three_rejected ("hi world".data) (by decide)⟩

/-- C9: `isValidDescription` rejects, in both leniency modes, any text
whose lowercase form is exactly one of the common exclusions and any text
longer than the configured 2500-character maximum; with leniency disabled
it additionally rejects any text containing a UI-chrome phrase as a
substring of its lowercase form; and with leniency enabled the UI-chrome
list plays no role: validity is exactly the length, relative-time, and
exact-exclusion checks. -/
theorem validity_exclusion_modes (t : List Char) :
    (commonExclusions.contains (lowerStr t) = true →
      isValidDescription t true = false ∧ isValidDescription t false = false) ∧
    (config.maxDescriptionLength < t.length →
      isValidDescription t true = false ∧ isValidDescription t false = false) ∧
    ((∃ e ∈ uiExclusions, containsSub e (lowerStr t) = true) →
      isValidDescription t false = false) ∧
    (isValidDescription t true =
      (!(t.isEmpty || decide (t.length < config.minDescriptionLength) ||
          decide (config.maxDescriptionLength < t.length)) &&
        !hasTimePattern t && !commonExclusions.contains (lowerStr t))) := by
  refine ⟨fun h => ?_, fun h => ?_, fun h => ?_, ?_⟩
  · have key : ∀ b, isValidDescription t b = false := by
      intro b
      unfold isValidDescription
      split
      · rfl
      split
      · rfl
      simp [h]
    exact ⟨key true, key false⟩
  · have key : ∀ b, isValidDescription t b = false := by
      intro b
      unfold isValidDescription
      split
      · rfl
      · rename_i hcond
        exact absurd (by simp [h]) hcond
    exact ⟨key true, key false⟩
  · obtain ⟨e, he, hc⟩ := h
    unfold isValidDescription
    split
    · rfl
    split
    · rfl
    split
    · rfl
    split
    · rfl
    · rename_i hcond
      refine absurd ?_ hcond
      simp only [Bool.not_false, Bool.true_and, List.any_eq_true]
      exact ⟨e, he, hc⟩
  · cases hg : (t.isEmpty || decide (t.length < config.minDescriptionLength) ||
        decide (config.maxDescriptionLength < t.length)) <;>
      cases ht : hasTimePattern t <;>
      cases hc : commonExclusions.contains (lowerStr t) <;>
      try simp [isValidDescription, hg, ht, hc]
    all_goals simpa using hc

/-- Witness for C9: a cased exact exclusion, an over-long text, a text
containing a UI-chrome phrase rejected without leniency, and the same
text accepted with leniency. -/
theorem validity_exclusion_modes_witness :
    isValidDescription ("Default Description".data) true = false ∧
    isValidDescription (List.replicate 2501 'a') false = false ∧
    isValidDescription ("please connect wallet now".data) false = false ∧
    isValidDescription ("please connect wallet now".data) true = true := by
  refine ⟨((validity_exclusion_modes ("Default Description".data)).1 (by decide)).1,
    ((validity_exclusion_modes (List.replicate 2501 'a')).2.1 ?_).2,
    (validity_exclusion_modes ("please connect wallet now".data)).2.2.1
      ⟨"connect wallet".data, by decide, by decide⟩,
    ?_⟩
  · rw [List.length_replicate]
    decide
  · rw [((validity_exclusion_modes ("please connect wallet now".data)).2.2.2)]
    decide

end Pump

namespace Pump

theorem squeeze_head (b : Char) (cs : List Char) : ∃ r, squeeze (b :: cs) = b :: r := by
  induction cs generalizing b with
  | nil => exact ⟨[], rfl⟩
  | cons c cs ih =>
    by_cases h : b = ' ' ∧ c = ' '
    · obtain ⟨hb, hc⟩ := h
      subst hb; subst hc
      obtain ⟨r, hr⟩ := ih ' '
      refine ⟨r, ?_⟩
      rw [squeeze]
      simpa using hr
    · refine ⟨squeeze (c :: cs), ?_⟩
      rw [squeeze]
      have hcond : (b = ' ' && c = ' ') = false := by
        rcases not_and_or.mp h with h1 | h1 <;> simp [h1]
      simp [hcond]

theorem noDouble_squeeze : ∀ l, noDoubleSpace (squeeze l) = true := by
  intro l
  induction l using squeeze.induct with
  | case1 => rfl
  | case2 c => rfl
  | case3 a b cs hcond ih =>
    rw [squeeze, if_pos hcond]
    exact ih
  | case4 a b cs hcond ih =>
    rw [squeeze, if_neg hcond]
    obtain ⟨r, hr⟩ := squeeze_head b cs
    rw [hr] at ih ⊢
    rw [noDoubleSpace]
    simp only [Bool.and_eq_true] at ih ⊢
    refine ⟨?_, ih⟩
    simp only [Bool.not_eq_true']
    cases hab : (a = ' ' && b = ' ') with
    | false => rfl
    | true => exact absurd hab (by simpa using hcond)
theorem mem_squeeze {a : Char} : ∀ {l : List Char}, a ∈ squeeze l → a ∈ l := by
  intro l
  induction l using squeeze.induct with
  | case1 => simp [squeeze]
  | case2 c => simp [squeeze]
  | case3 x b cs hcond ih =>
    rw [squeeze, if_pos hcond]
    intro h
    exact List.mem_cons_of_mem x (ih h)
  | case4 x b cs hcond ih =>
    rw [squeeze, if_neg hcond]
    intro h
    rcases List.mem_cons.mp h with h1 | h1
    · exact h1 ▸ List.mem_cons_self x _
    · exact List.mem_cons_of_mem x (ih h1)

theorem noDouble_tail {c : Char} {cs : List Char}
    (h : noDoubleSpace (c :: cs) = true) : noDoubleSpace cs = true := by
  cases cs with
  | nil => rfl
  | cons b l =>
    rw [noDoubleSpace, Bool.and_eq_true] at h
    exact h.2

theorem noDouble_dropWhile (p : Char → Bool) :
    ∀ {l : List Char}, noDoubleSpace l = true →
      noDoubleSpace (List.dropWhile p l) = true := by
  intro l
  induction l with
  | nil => intro h; exact h
  | cons c cs ih =>
    intro h
    rw [List.dropWhile]
    cases p c with
    | true => exact ih (noDouble_tail h)
    | false => exact h

theorem dropTrailWs_shape (c : Char) (cs : List Char) :
    dropTrailWs (c :: cs) = [] ∨ ∃ r, dropTrailWs (c :: cs) = c :: r := by
  rw [dropTrailWs]
  cases h : dropTrailWs cs with
  | nil =>
    cases hc : isJsSpace c with
    | true => left; simp [hc]
    | false => right; exact ⟨[], by simp [hc]⟩
  | cons d r => right; exact ⟨d :: r, rfl⟩

theorem mem_dropTrailWs {a : Char} : ∀ {l : List Char}, a ∈ dropTrailWs l → a ∈ l := by
  intro l
  induction l with
  | nil => intro h; exact h
  | cons c cs ih =>
    rw [dropTrailWs]
    cases h : dropTrailWs cs with
    | nil =>
      cases hc : isJsSpace c <;> simp
      intro ha; exact Or.inl ha
    | cons d r =>
      intro hm
      rcases List.mem_cons.mp hm with h1 | h1
      · exact h1 ▸ List.mem_cons_self c _
      · exact List.mem_cons_of_mem c (ih (h ▸ h1))

theorem noDouble_dropTrailWs : ∀ {l : List Char}, noDoubleSpace l = true →
    noDoubleSpace (dropTrailWs l) = true := by
  intro l
  induction l with
  | nil => intro h; exact h
  | cons c cs ih =>
    intro h
    rw [dropTrailWs]
    cases hd : dropTrailWs cs with
    | nil =>
      cases hc : isJsSpace c <;> simp [noDoubleSpace]
    | cons d r =>
      have htl : noDoubleSpace (d :: r) = true := hd ▸ ih (noDouble_tail h)
      cases cs with
      | nil => simp [dropTrailWs] at hd
      | cons e cs2 =>
        have hde : d = e := by
          rcases dropTrailWs_shape e cs2 with h1 | ⟨r2, h2⟩
          · rw [h1] at hd; exact absurd hd (by simp)
          · rw [h2] at hd
            exact (List.cons_eq_cons.mp hd).1.symm ▸ rfl
        rw [noDoubleSpace, Bool.and_eq_true]
        refine ⟨?_, htl⟩
        rw [noDoubleSpace, Bool.and_eq_true] at h
        rw [hde]
        exact h.1

theorem noTrailingWs_dropTrailWs : ∀ (l : List Char),
    noTrailingWs (dropTrailWs l) = true := by
  intro l
  induction l with
  | nil => rfl
  | cons c cs ih =>
    rw [dropTrailWs]
    cases hd : dropTrailWs cs with
    | nil =>
      cases hc : isJsSpace c with
      | true => simp [hc]; rfl
      | false => simp [noTrailingWs, hc]
    | cons d r =>
      rw [hd] at ih
      rw [noTrailingWs]
      exact ih

theorem noLeadingWs_dropTrailWs {l : List Char} (h : noLeadingWs l = true) :
    noLeadingWs (dropTrailWs l) = true := by
  cases l with
  | nil => exact h
  | cons c cs =>
    rcases dropTrailWs_shape c cs with h1 | ⟨r, h2⟩
    · rw [h1]; rfl
    · rw [h2]
      rw [noLeadingWs] at h ⊢
      exact h

theorem noLeadingWs_dropWhileWs : ∀ (l : List Char),
    noLeadingWs (List.dropWhile isJsSpace l) = true := by
  intro l
  induction l with
  | nil => rfl
  | cons c cs ih =>
    rw [List.dropWhile]
    cases hc : isJsSpace c with
    | true => exact ih
    | false => rw [noLeadingWs, hc]; rfl

theorem onlyPlainSpace_of_subset {l m : List Char}
    (hsub : ∀ a, a ∈ m → a ∈ l) (h : onlyPlainSpace l = true) :
    onlyPlainSpace m = true := by
  rw [onlyPlainSpace, List.all_eq_true] at h ⊢
  exact fun a ha => h a (hsub a ha)

theorem onlyPlainSpace_wsToSpace (t : List Char) :
    onlyPlainSpace (wsToSpace t) = true := by
  rw [onlyPlainSpace, List.all_eq_true]
  intro a ha
  rw [wsToSpace, List.mem_map] at ha
  obtain ⟨c, _, hc⟩ := ha
  by_cases hs : isJsSpace c = true
  · simp [hs] at hc
    simp [← hc]
  · simp [Bool.not_eq_true] at hs
    simp [hs] at hc
    subst hc
    simp [hs]

theorem normalizeWs_normalized (t : List Char) :
    isNormalizedText (normalizeWs t) = true := by
  rw [normalizeWs, trimWs, isNormalizedText]
  simp only [Bool.and_eq_true]
  refine ⟨⟨⟨?_, ?_⟩, ?_⟩, ?_⟩
  · refine onlyPlainSpace_of_subset ?_ (onlyPlainSpace_wsToSpace t)
    intro a ha
    exact mem_squeeze ((List.dropWhile_sublist _).subset (mem_dropTrailWs ha))
  · exact noDouble_dropTrailWs (noDouble_dropWhile _ (noDouble_squeeze _))
  · exact noLeadingWs_dropTrailWs (noLeadingWs_dropWhileWs _)
  · exact noTrailingWs_dropTrailWs _

theorem dropTrailWs_ne_nil {c : Char} (r : List Char) (hc : isJsSpace c = false) :
    dropTrailWs (c :: r) ≠ [] := by
  rw [dropTrailWs]
  cases dropTrailWs r with
  | nil => simp [hc]
  | cons d s => simp

theorem normalizeWs_ne_nil {c : Char} {l : List Char} (hc : isJsSpace c = false) :
    normalizeWs (c :: l) ≠ [] := by
  rw [normalizeWs, trimWs]
  have h1 : wsToSpace (c :: l) = c :: wsToSpace l := by
    simp [wsToSpace, hc]
  rw [h1]
  obtain ⟨r, hr⟩ := squeeze_head c (wsToSpace l)
  rw [hr]
  rw [List.dropWhile]
  simp only [hc]
  exact dropTrailWs_ne_nil r hc

theorem noLeadingWs_trimWs (l : List Char) : noLeadingWs (trimWs l) = true := by
  rw [trimWs]
  exact noLeadingWs_dropTrailWs (noLeadingWs_dropWhileWs l)

theorem isValid_ne_nil {t : List Char} {b : Bool}
    (h : isValidDescription t b = true) : t ≠ [] := by
  intro h0
  subst h0
  simp [isValidDescription] at h

theorem textBlock_isValid {t : List Char}
    (h : isValidTextBlock t = true) : isValidDescription t false = true := by
  cases hv : isValidDescription t false with
  | true => rfl
  | false =>
    unfold isValidTextBlock at h
    rw [hv] at h
    simp at h

theorem normalizeWs_of_valid_trim {raw : List Char}
    (hv : isValidDescription (trimWs raw) false = true) :
    normalizeWs (trimWs raw) ≠ [] := by
  have hne : trimWs raw ≠ [] := isValid_ne_nil hv
  have hlead : noLeadingWs (trimWs raw) = true := noLeadingWs_trimWs raw
  cases htw : trimWs raw with
  | nil => exact absurd htw hne
  | cons c l =>
    rw [htw] at hlead
    rw [noLeadingWs] at hlead
    simp only [Bool.not_eq_true'] at hlead
    exact normalizeWs_ne_nil hlead

theorem firstMetaValid_normalized : ∀ {L : List (Option (List Char))}
    {r : List Char}, firstMetaValid L = some r → isNormalizedText r = true := by
  intro L
  induction L with
  | nil => intro r h; exact absurd h (by simp [firstMetaValid])
  | cons oc rest ih =>
    intro r h
    cases oc with
    | none => rw [firstMetaValid] at h; exact ih h
    | some content =>
      rw [firstMetaValid] at h
      by_cases hc : (!content.isEmpty && isValidDescription content true) = true
      · rw [if_pos hc] at h
        have hr := Option.some.inj h
        rw [← hr]
        exact normalizeWs_normalized content
      · rw [if_neg hc] at h
        exact ih h

theorem firstStructValidIn_spec : ∀ {L : List (List Char)} {r : List Char},
    firstStructValidIn L = some r → isNormalizedText r = true ∧ r ≠ [] := by
  intro L
  induction L with
  | nil => intro r h; exact absurd h (by simp [firstStructValidIn])
  | cons raw rest ih =>
    intro r h
    rw [firstStructValidIn] at h
    by_cases hv : isValidDescription (trimWs raw) false = true
    · rw [if_pos hv] at h
      have hr := Option.some.inj h
      rw [← hr]
      exact ⟨normalizeWs_normalized _, normalizeWs_of_valid_trim hv⟩
    · rw [if_neg hv] at h
      exact ih h

theorem firstStructValid_spec : ∀ {L : List (List (List Char))} {r : List Char},
    firstStructValid L = some r → isNormalizedText r = true ∧ r ≠ [] := by
  intro L
  induction L with
  | nil => intro r h; exact absurd h (by simp [firstStructValid])
  | cons elems rest ih =>
    intro r h
    rw [firstStructValid] at h
    cases hin : firstStructValidIn elems with
    | some x =>
      rw [hin] at h
      have hr := Option.some.inj h
      rw [← hr]
      exact firstStructValidIn_spec hin
    | none =>
      rw [hin] at h
      exact ih h

theorem findTextBlocks_spec : ∀ {L : List (Bool × List Char)} {r : List Char},
    findTextBlocks L = some r → isNormalizedText r = true ∧ r ≠ [] := by
  intro L
  induction L with
  | nil => intro r h; exact absurd h (by simp [findTextBlocks])
  | cons bt rest ih =>
    intro r h
    obtain ⟨leaf, raw⟩ := bt
    rw [findTextBlocks] at h
    by_cases hc : (leaf && isValidTextBlock (trimWs raw)) = true
    · rw [if_pos hc] at h
      have hr := Option.some.inj h
      rw [← hr]
      rw [Bool.and_eq_true] at hc
      have hv : isValidDescription (trimWs raw) false = true :=
        textBlock_isValid hc.2
      exact ⟨normalizeWs_normalized _, normalizeWs_of_valid_trim hv⟩
    · rw [if_neg hc] at h
      exact ih h

/-- C10 counterexample: a meta content attribute consisting of a single
space passes validity (it is non-empty and validated before trimming), so
extraction returns the empty string, not null. -/
theorem extract_empty_string_cex :
    extractDescription
      (HtmlDoc.mk (some [' ']) none none [] [] [] [] []) = some [] ∧
    isValidDescription [' '] true = true :=
  ⟨by decide, by decide⟩

/-- C10 amended: `isValidDescription` rejects the empty string in both
leniency modes, and every non-null extraction result is a
whitespace-normalized string; results of the structural-selector and
text-block strategies are additionally non-empty, but the meta-tag
strategy can return the empty string when a meta content attribute is
entirely whitespace, because it validates the raw attribute before
normalisation. -/
theorem extract_result_normalized (d : HtmlDoc) :
    (∀ b, isValidDescription [] b = false) ∧
    (∀ r, extractDescription d = some r → isNormalizedText r = true) ∧
    (∀ r, firstStructValid (structuralTexts d) = some r → r ≠ []) ∧
    (∀ r, findTextBlocks d.textElements = some r → r ≠ []) := by
  refine ⟨fun b => by cases b <;> rfl, ?_, ?_, ?_⟩
  · intro r h
    rw [extractDescription] at h
    cases hm : firstMetaValid (metaContents d) with
    | some x =>
      rw [hm] at h
      have hr := Option.some.inj h
      rw [← hr]
      exact firstMetaValid_normalized hm
    | none =>
      rw [hm] at h
      cases hs : firstStructValid (structuralTexts d) with
      | some x =>
        rw [hs] at h
        have hr := Option.some.inj h
        rw [← hr]
        exact (firstStructValid_spec hs).1
      | none =>
        rw [hs] at h
        exact (findTextBlocks_spec h).1
  · intro r h
    exact (firstStructValid_spec h).2
  · intro r h
    exact (findTextBlocks_spec h).2

/-- Witness for the amended C10, on a document whose structural selector
carries a valid description. -/
theorem extract_result_normalized_witness :
    isValidDescription [] true = false ∧
    isNormalizedText ("A worthwhile token story".data) = true ∧
    ("A worthwhile token story".data ≠ ([] : List Char)) :=
  ⟨(extract_result_normalized
      (HtmlDoc.mk none none none ["A worthwhile token story".data] [] [] [] [])).1 true,
   (extract_result_normalized
      (HtmlDoc.mk none none none ["A worthwhile token story".data] [] [] [] [])).2.1
      ("A worthwhile token story".data) (by decide),
   (extract_result_normalized
      (HtmlDoc.mk none none none ["A worthwhile token story".data] [] [] [] [])).2.2.1
      ("A worthwhile token story".data) (by decide)⟩

end Pump

namespace Pump

/-- C1: the description extractor applies its strategies in strict
priority order — meta tags filtered with leniency enabled, then
structural selectors filtered without leniency, then the leaf text-block
scan — returning the first pass's candidate when it exists, and null
exactly when no strategy yields a candidate. -/
theorem extractDescription_priority_order (d : HtmlDoc) :
    (∀ r, firstMetaValid (metaContents d) = some r →
      extractDescription d = some r) ∧
    (firstMetaValid (metaContents d) = none →
      ∀ r, firstStructValid (structuralTexts d) = some r →
        extractDescription d = some r) ∧
    (firstMetaValid (metaContents d) = none →
      firstStructValid (structuralTexts d) = none →
      extractDescription d = findTextBlocks d.textElements) ∧
    (extractDescription d = none ↔
      firstMetaValid (metaContents d) = none ∧
      firstStructValid (structuralTexts d) = none ∧
      findTextBlocks d.textElements = none) := by
  refine ⟨?_, ?_, ?_, ?_⟩
  · intro r h
    rw [extractDescription, h]
  · intro hm r hs
    rw [extractDescription, hm, hs]
  · intro hm hs
    rw [extractDescription, hm, hs]
  · rw [extractDescription]
    cases hm : firstMetaValid (metaContents d) <;>
      cases hs : firstStructValid (structuralTexts d) <;>
        simp

/-- Witness for C1 on a document whose first meta tag is acceptable. -/
theorem extractDescription_priority_order_witness :
    firstMetaValid (metaContents
      (HtmlDoc.mk (some ("A plain token for cats".data)) none none [] [] [] [] []))
      = some ("A plain token for cats".data) ∧
    extractDescription
      (HtmlDoc.mk (some ("A plain token for cats".data)) none none [] [] [] [] [])
      = some ("A plain token for cats".data) :=
  ⟨by decide,
   (extractDescription_priority_order
      (HtmlDoc.mk (some ("A plain token for cats".data)) none none [] [] [] [] [])).1
      ("A plain token for cats".data) (by decide)⟩

/-- C2: whenever the upstream list fetch fails with a network error,
returns a non-2xx status, or returns a body not parseable as the expected
shape, `getPumpList` resolves to the empty list instead of propagating
the error (the model is a total function, so no exception crosses the
boundary). -/
theorem getPumpList_upstream_failure_empty (u : UpstreamResult) (rl : Bool)
    (env : FetchEnv) (c : Cache) (h : upstreamFailed u = true) :
    getPumpList u rl env c = [] := by
  cases u with
  | netError => rfl
  | response ok body =>
    cases ok with
    | false => rfl
    | true =>
      cases body with
      | unparseable => rfl
      | parsed rank =>
        cases rank with
        | none => rfl
        | some ts => simp [upstreamFailed] at h

/-- Witness for C2 at a network error. -/
theorem getPumpList_upstream_failure_empty_witness :
    upstreamFailed UpstreamResult.netError = true ∧
    getPumpList UpstreamResult.netError false
      (fun _ => FetchResult.failure []) emptyCache = [] :=
  ⟨rfl,
   getPumpList_upstream_failure_empty UpstreamResult.netError false
     (fun _ => FetchResult.failure []) emptyCache rfl⟩

/-- C5: when the batch orchestrator loses the race against the 15000 ms
enrichment timeout, enrichment is abandoned, the token list is returned
unenriched, and the loss is an ordinary return path, not an error. -/
theorem enrichment_timeout_returns_unenriched (env : FetchEnv) (c : Cache)
    (rank : Option (List RankedToken)) :
    enrichmentTimeoutMs = 15000 ∧
    (∀ tokens, enhanceTokensWithDescriptions true env c tokens = tokens) ∧
    getPumpList (UpstreamResult.response true (UpstreamBody.parsed rank))
      true env c = rank.getD [] := by
  have henh : ∀ tokens, enhanceTokensWithDescriptions true env c tokens = tokens := by
    intro tokens
    by_cases hne : (List.filter needsDescription tokens).isEmpty = true <;>
      simp [enhanceTokensWithDescriptions, hne]
  refine ⟨rfl, henh, ?_⟩
  show (if 0 < (enhanceTokensWithDescriptions true env c (rank.getD [])).length
    then enhanceTokensWithDescriptions true env c (rank.getD []) else []) = rank.getD []
  rw [henh]
  cases rank with
  | none => rfl
  | some ts =>
    cases ts with
    | nil => rfl
    | cons t tl => simp

end Pump

namespace Pump

theorem scrape_spec (env : FetchEnv) (c : Cache) (a : List Char) :
    scrapeTokenDescription env c a =
      (settledResult env c a,
       (match c a with
        | some _ => c
        | none => cacheSet c a (storedEntry env a)),
       (match c a with
        | some _ => 0
        | none => 1)) := by
  unfold scrapeTokenDescription settledResult freshValue storedEntry
  cases hc : c a with
  | some entry => rfl
  | none =>
    cases henv : env a with
    | success html => rfl
    | failure msg => rfl

theorem storedEntry_getD (env : FetchEnv) (a : List Char) :
    (storedEntry env a).description.getD placeholder = freshValue env a := by
  unfold storedEntry freshValue
  cases henv : env a with
  | success html =>
    cases hd : extractDescription html with
    | none => simp [jsOrUndefined, jsOrPlaceholder, hd]
    | some s =>
      by_cases hse : s = []
      · subst hse
        simp [jsOrUndefined, jsOrPlaceholder, hd]
      · simp [jsOrUndefined, jsOrPlaceholder, hd, hse]
  | failure msg => rfl

theorem settled_stable (env : FetchEnv) (c : Cache) (a b : List Char) :
    settledResult env (scrapeTokenDescription env c a).2.1 b =
      settledResult env c b := by
  rw [scrape_spec]
  cases hc : c a with
  | some entry => rfl
  | none =>
    by_cases hb : b = a
    · subst hb
      unfold settledResult
      rw [hc]
      simp only [cacheSet, if_pos rfl]
      exact storedEntry_getD env b
    · unfold settledResult
      simp only [cacheSet, if_neg hb]

end Pump

namespace Pump

/-- C3: scraping an uncached identifier issues exactly one fetch, stores
a result in the cache, and any later call for the same identifier returns
the same result with the same cache and zero fetches; evicting the
identifier removes the entry again. -/
theorem scrapeTokenDescription_caches_first_fetch (env : FetchEnv)
    (c : Cache) (a : List Char) (h : c a = none) :
    (scrapeTokenDescription env c a).2.2 = 1 ∧
    ((scrapeTokenDescription env c a).2.1 a).isSome = true ∧
    scrapeTokenDescription env (scrapeTokenDescription env c a).2.1 a =
      ((scrapeTokenDescription env c a).1,
       (scrapeTokenDescription env c a).2.1, 0) ∧
    clearTokenFromCache (scrapeTokenDescription env c a).2.1 a a = none := by
  have hs : scrapeTokenDescription env c a =
      (settledResult env c a, cacheSet c a (storedEntry env a), 1) := by
    rw [scrape_spec, h]
  have hca : cacheSet c a (storedEntry env a) a = some (storedEntry env a) := by
    simp [cacheSet]
  refine ⟨?_, ?_, ?_, ?_⟩
  · rw [hs]
  · rw [hs]
    simp [cacheSet]
  · rw [hs]
    rw [scrape_spec]
    dsimp only
    rw [hca]
    unfold settledResult
    rw [hca, h]
    dsimp only
    rw [storedEntry_getD]
  · rw [hs]
    simp [clearTokenFromCache]

/-- Witness for C3: a fresh cache, a failing environment, address "X". -/
theorem scrapeTokenDescription_caches_first_fetch_witness :
    emptyCache ("X".data) = none ∧
    ((scrapeTokenDescription (fun _ => FetchResult.failure ("err".data))
        emptyCache ("X".data)).2.2 = 1 ∧
     ((scrapeTokenDescription (fun _ => FetchResult.failure ("err".data))
        emptyCache ("X".data)).2.1 ("X".data)).isSome = true ∧
     scrapeTokenDescription (fun _ => FetchResult.failure ("err".data))
       (scrapeTokenDescription (fun _ => FetchResult.failure ("err".data))
          emptyCache ("X".data)).2.1 ("X".data) =
       ((scrapeTokenDescription (fun _ => FetchResult.failure ("err".data))
           emptyCache ("X".data)).1,
        (scrapeTokenDescription (fun _ => FetchResult.failure ("err".data))
           emptyCache ("X".data)).2.1, 0) ∧
     clearTokenFromCache
       (scrapeTokenDescription (fun _ => FetchResult.failure ("err".data))
          emptyCache ("X".data)).2.1 ("X".data) ("X".data) = none) :=
  ⟨rfl,
   scrapeTokenDescription_caches_first_fetch
     (fun _ => FetchResult.failure ("err".data)) emptyCache ("X".data) rfl⟩

theorem processBatchGo_lookup (env : FetchEnv) (c0 : Cache) :
    ∀ (addrs : List (List Char)) (c : Cache) (res : ResMap),
      (∀ b, settledResult env c b = settledResult env c0 b) →
      ∀ x, (x ∈ addrs ∨ res x = some (settledResult env c0 x)) →
        (processBatchGo env c res addrs).1 x =
          some (settledResult env c0 x) := by
  intro addrs
  induction addrs with
  | nil =>
    intro c res hstab x hx
    rcases hx with hx | hx
    · exact absurd hx (List.not_mem_nil x)
    · exact hx
  | cons a rest ih =>
    intro c res hstab x hx
    rw [processBatchGo]
    apply ih
    · intro b
      rw [settled_stable]
      exact hstab b
    · rcases hx with hx | hx
      · rcases List.mem_cons.mp hx with h1 | h1
        · subst h1
          right
          simp only [resSet, if_pos rfl]
          rw [scrape_spec]
          exact congrArg some (hstab x)
        · left
          exact h1
      · right
        by_cases hxa : x = a
        · subst hxa
          simp only [resSet, if_pos rfl]
          rw [scrape_spec]
          exact congrArg some (hstab x)
        · simp only [resSet, if_neg hxa]
          exact hx

/-- C4: every address of a batch appears in the returned record with its
own settled result (the wrapped scrape never rejects, so no failure
cancels a sibling), and an uncached address whose fetch throws is
surfaced as the "No description available" placeholder. -/
theorem processBatch_settles_every_address (env : FetchEnv) (c : Cache)
    (addrs : List (List Char)) (a : List Char) (h : a ∈ addrs) :
    (processBatch env c addrs).1 a = some (settledResult env c a) ∧
    (∀ msg, env a = FetchResult.failure msg → c a = none →
      settledResult env c a = placeholder) := by
  constructor
  · exact processBatchGo_lookup env c addrs c emptyRes (fun b => rfl) a (Or.inl h)
  · intro msg hf hc
    unfold settledResult freshValue
    rw [hc, hf]

/-- Witness for C4: a two-address batch where fetching "A" throws and
"B" succeeds; both appear in the record, "A" as the placeholder. -/
theorem processBatch_settles_every_address_witness :
    (processBatch envAB emptyCache [("A".data), ("B".data)]).1 ("A".data) =
      some (settledResult envAB emptyCache ("A".data)) ∧
    (processBatch envAB emptyCache [("A".data), ("B".data)]).1 ("B".data) =
      some (settledResult envAB emptyCache ("B".data)) ∧
    settledResult envAB emptyCache ("A".data) = placeholder ∧
    settledResult envAB emptyCache ("B".data) = ("Nice token indeed".data) :=
  ⟨(processBatch_settles_every_address envAB emptyCache
      [("A".data), ("B".data)] ("A".data) (by decide)).1,
   (processBatch_settles_every_address envAB emptyCache
      [("A".data), ("B".data)] ("B".data) (by decide)).1,
   (processBatch_settles_every_address envAB emptyCache
      [("A".data), ("B".data)] ("A".data) (by decide)).2 ("boom".data) rfl rfl,
   by decide⟩

end Pump

namespace Pump

theorem processBatchGo_domain (env : FetchEnv) :
    ∀ (addrs : List (List Char)) (c : Cache) (res : ResMap) (x : List Char),
      (processBatchGo env c res addrs).1 x ≠ none →
      res x ≠ none ∨ x ∈ addrs := by
  intro addrs
  induction addrs with
  | nil =>
    intro c res x h
    exact Or.inl h
  | cons a rest ih =>
    intro c res x h
    rw [processBatchGo] at h
    rcases ih _ _ x h with h1 | h1
    · by_cases hxa : x = a
      · subst hxa
        exact Or.inr (List.mem_cons_self x rest)
      · left
        simp only [resSet, if_neg hxa] at h1
        exact h1
    · exact Or.inr (List.mem_cons_of_mem a h1)

theorem scrapeMultiGo_domain (env : FetchEnv) :
    ∀ (n : Nat) (addrs : List (List Char)) (c : Cache) (res : ResMap)
      (x : List Char),
      (scrapeMultiGo env n c res addrs).1 x ≠ none →
      res x ≠ none ∨ x ∈ addrs := by
  intro n
  induction n with
  | zero =>
    intro addrs c res x h
    cases addrs with
    | nil => exact Or.inl h
    | cons a rest => exact Or.inl h
  | succ n ih =>
    intro addrs c res x h
    cases addrs with
    | nil => exact Or.inl h
    | cons a rest =>
      rw [scrapeMultiGo] at h
      rcases ih _ _ _ x h with h1 | h1
      · unfold resMerge at h1
        cases hb : (processBatch env c ((a :: rest).take config.batchSize)).1 x with
        | some v =>
          right
          have hne : (processBatch env c ((a :: rest).take config.batchSize)).1 x ≠ none := by
            rw [hb]
            exact Option.some_ne_none v
          rcases processBatchGo_domain env _ _ _ x hne with hc | hc
          · exact absurd rfl hc
          · exact List.mem_of_mem_take hc
        | none =>
          rw [hb] at h1
          exact Or.inl h1
      · exact Or.inr (List.mem_of_mem_drop h1)

/-- C6 counterexample: the merge loop is keyed only by address and runs
over every token, so with two tokens sharing address "X" — the first
needing a description, the second already carrying "Existing text" — the
scraped description overwrites both, changing a token whose description
was non-empty. -/
theorem enhance_overwrites_duplicate_address :
    needsDescription
      (RankedToken.mk ("X".data) (some ("Existing text".data))) = false ∧
    enhanceTokensWithDescriptions false
      (fun _ => FetchResult.success
        (HtmlDoc.mk (some ("Found description".data)) none none [] [] [] [] []))
      emptyCache
      [RankedToken.mk ("X".data) (some []),
       RankedToken.mk ("X".data) (some ("Existing text".data))] =
      [RankedToken.mk ("X".data) (some ("Found description".data)),
       RankedToken.mk ("X".data) (some ("Found description".data))] :=
  ⟨by decide, by decide⟩

/-- C6 amended: provided the tokens' addresses are pairwise distinct,
enrichment returns exactly the pointwise update in which every token
whose description was absent or blank receives the scraper's truthy
non-placeholder value for its address (when there is one) and every other
token is unchanged; with duplicated addresses the merge, being keyed by
address, can also overwrite a token that already had a description. -/
theorem enhance_enriches_exactly_needing (env : FetchEnv) (c : Cache)
    (tokens : List RankedToken)
    (hnd : (tokens.map RankedToken.address).Nodup) :
    enhanceTokensWithDescriptions false env c tokens =
      tokens.map (fun t =>
        if needsDescription t then
          applyScrape
            ((scrapeMultipleTokens env c
              ((tokens.filter needsDescription).map RankedToken.address)).1) t
        else t) := by
  by_cases hempty : (tokens.filter needsDescription).isEmpty = true
  · rw [List.isEmpty_iff] at hempty
    have hall : ∀ t ∈ tokens, needsDescription t = false := by
      intro t ht
      by_cases hn : needsDescription t = true
      · exact absurd (List.mem_filter.mpr ⟨ht, hn⟩)
          (by rw [hempty]; exact List.not_mem_nil t)
      · simpa using hn
    have hlhs : enhanceTokensWithDescriptions false env c tokens = tokens := by
      simp [enhanceTokensWithDescriptions, hempty]
    rw [hlhs]
    symm
    calc tokens.map (fun t =>
            if needsDescription t then
              applyScrape
                ((scrapeMultipleTokens env c
                  ((tokens.filter needsDescription).map RankedToken.address)).1) t
            else t)
        = tokens.map id := List.map_congr_left (fun t ht => by rw [hall t ht]; simp)
      _ = tokens := List.map_id tokens
  · have hlhs : enhanceTokensWithDescriptions false env c tokens =
        tokens.map (applyScrape
          ((scrapeMultipleTokens env c
            ((tokens.filter needsDescription).map RankedToken.address)).1)) := by
      simp [enhanceTokensWithDescriptions, hempty]
    rw [hlhs]
    apply List.map_congr_left
    intro t ht
    by_cases hn : needsDescription t = true
    · rw [if_pos hn]
    · rw [if_neg hn]
      have hdom : (scrapeMultipleTokens env c
          ((tokens.filter needsDescription).map RankedToken.address)).1
            t.address = none := by
        by_contra hne
        rcases scrapeMultiGo_domain env _ _ _ _ t.address hne with h1 | h1
        · exact h1 rfl
        · rw [List.mem_map] at h1
          obtain ⟨t2, ht2, haddr⟩ := h1
          have ht2m := List.mem_filter.mp ht2
          have heq : t = t2 :=
            List.inj_on_of_nodup_map hnd ht ht2m.1 haddr.symm
          rw [heq] at hn
          exact hn ht2m.2
      unfold applyScrape
      rw [hdom]

/-- Witness for the amended C6 on the spec's end-to-end scenario A:
address "X" lacking a description is enriched, address "Y" with
"Existing text" is untouched. -/
theorem enhance_enriches_exactly_needing_witness :
    (([RankedToken.mk ("X".data) (some []),
       RankedToken.mk ("Y".data) (some ("Existing text".data))].map
        RankedToken.address).Nodup) ∧
    enhanceTokensWithDescriptions false
      (fun _ => FetchResult.success
        (HtmlDoc.mk (some ("Found description".data)) none none [] [] [] [] []))
      emptyCache
      [RankedToken.mk ("X".data) (some []),
       RankedToken.mk ("Y".data) (some ("Existing text".data))] =
      [RankedToken.mk ("X".data) (some []),
       RankedToken.mk ("Y".data) (some ("Existing text".data))].map (fun t =>
        if needsDescription t then
          applyScrape
            ((scrapeMultipleTokens
              (fun _ => FetchResult.success
                (HtmlDoc.mk (some ("Found description".data)) none none [] [] [] [] []))
              emptyCache
              (([RankedToken.mk ("X".data) (some []),
                 RankedToken.mk ("Y".data) (some ("Existing text".data))].filter
                  needsDescription).map RankedToken.address)).1) t
        else t) :=
  ⟨by decide,
   enhance_enriches_exactly_needing
     (fun _ => FetchResult.success
       (HtmlDoc.mk (some ("Found description".data)) none none [] [] [] [] []))
     emptyCache
     [RankedToken.mk ("X".data) (some []),
      RankedToken.mk ("Y".data) (some ("Existing text".data))]
     (by decide)⟩

end Pump
